import Mathlib

/-!
Shallow embedding of the argument-conversion core of the go-hdb driver
(`driver/convert.go`): the three entry points `convertExecArgs`,
`convertQueryArgs` and `convertCallArgs` together with their leaf
components `isNilArg`, `reorderNVArgs`, `convertArg` and LOB priming.

Caller-side Go values are modelled as the tagged variant `GoValue`
(null interface, pointer chains, primitives, `driver.Valuer` producers,
`sql.Out` wrappers, `*sql.Rows` cursor sinks, `*p.LobInDescr` streams).
Errors are modelled structurally by `DriverError`, keeping exactly the
payloads the messages of the source carry.  In-place mutation of the
caller's `[]driver.NamedValue` is modelled by explicit state passing:
each entry point additionally returns the mutated argument list.
-/

/-- Structural model of the error values produced in `driver/convert.go`.
Each constructor corresponds to one `fmt.Errorf` site and carries the data
interpolated into that message.  `external` stands for an arbitrary error
coming from a collaborator (a `driver.Valuer` producer or a LOB source),
which the source surfaces unchanged. -/
inductive DriverError where
  /-- invalid number of arguments (observed count, expected count or divisor). -/
  | arity (got expected : Nat)
  /-- invalid parameter - output not allowed (exec and query modes). -/
  | outFieldNotAllowed (field : String)
  /-- invalid argument - output not allowed (exec and query modes). -/
  | outArgNotAllowed
  /-- invalid argument - named parameters not supported (exec and query modes). -/
  | namedNotSupported (name : String)
  /-- field conversion error, wrapping the underlying error. -/
  | fieldConv (field : String) (inner : DriverError)
  /-- invalid argument name - did you mean ...? (call mode). -/
  | invalidArgName (name suggestion : String)
  /-- argument field mismatch - use in argument with out field (call mode). -/
  | inArgWithOutField (field : String)
  /-- argument field mismatch - use out argument with non-out field (call mode). -/
  | outArgWithNonOutField (field : String)
  /-- invalid output parameter type (a cursor sink at a scalar out position). -/
  | invalidOutputParamType (ty : String)
  /-- invalid parameter type at index - output parameter expected (trailing args). -/
  | trailingNotOutParam (ty : String) (idx : Nat)
  /-- invalid output parameter at index - sql.Rows expected (trailing args). -/
  | trailingDestNotRows (ty : String) (idx : Nat)
  /-- an error raised by an external collaborator, surfaced verbatim. -/
  | external (msg : String)
deriving DecidableEq

/-- Model of `p.LobInDescr`, an in-progress large-object upload.
`FetchNext` is the only effect on it; the model records how often it has
been invoked (`fetchCount`), whether invoking it fails (`fetchErr`) and
what `Opt.IsLastData()` reports once the first chunk is fetched
(`lastData`). -/
structure LobInDescr where
  fetchCount : Nat
  fetchErr : Option DriverError
  lastData : Bool
deriving DecidableEq

/-- Model of `LobInDescr.FetchNext(chunkSize)`: either the external chunk
source fails, or the descriptor has fetched one more chunk.  The chunk
size is threaded through by the source but does not influence anything a
claim observes, so the model ignores its value. -/
def LobInDescr.fetchNext (d : LobInDescr) (_chunkSize : Nat) : Except DriverError LobInDescr :=
  match d.fetchErr with
  | some e => .error e
  | none => .ok { d with fetchCount := d.fetchCount + 1 }

/-- Model of `lobInDescr.Opt.IsLastData()`. -/
def LobInDescr.isLastData (d : LobInDescr) : Bool :=
  d.lastData

/-- Tagged-variant model of a caller-side Go `driver.Value`/`any`:
`null` is the nil interface, `ptrNil` a typed nil pointer, `ptr` a
non-nil pointer to its pointee, `prim`/`str` primitives, `valuer` a
`driver.Valuer` whose `Value()` call either fails with the recorded
error or yields the inner value, `out` the `sql.Out` wrapper with its
`In` flag and `Dest`, `rows` a (non-nil) `*sql.Rows` cursor sink, and
`lobIn` a `*p.LobInDescr`. -/
inductive GoValue where
  | null
  | ptrNil
  | ptr (inner : GoValue)
  | prim (n : Int)
  | str (s : String)
  | valuer (err : Option DriverError) (inner : GoValue)
  | out (isIn : Bool) (dest : GoValue)
  | rows
  | lobIn (d : LobInDescr)
deriving DecidableEq

/-- Rendering of the dynamic type of a value, standing in for Go's `%T`
format verb in error messages. -/
def GoValue.typeName : GoValue → String
  | .null => "<nil>"
  | .ptrNil => "*value"
  | .ptr _ => "*value"
  | .prim _ => "int64"
  | .str _ => "string"
  | .valuer _ _ => "driver.Valuer"
  | .out _ _ => "sql.Out"
  | .rows => "*sql.Rows"
  | .lobIn _ => "*p.LobInDescr"

/-- Model of `driver.NamedValue`: ordinal, optional name, value. -/
structure NamedValue where
  Ordinal : Nat
  Name : String
  Value : GoValue
deriving DecidableEq

/-- Default used for out-of-range list reads (the source indexes only in
bounds, so this default is never the value actually read). -/
def nvDefault : NamedValue :=
  ⟨0, "", .null⟩

/-- Model of `p.ParameterField` as consumed by the conversion core: a
name, the direction flags `In`/`Out`, and the field's `Convert`
capability.  The CESU-8 transcoder that the source threads into
`Convert` is folded into the capability itself, since no claim observes
it separately. -/
structure ParameterField where
  Name : String
  In : Bool
  Out : Bool
  Convert : GoValue → Except DriverError GoValue

/-- Model of `isNilArg` (convert.go:14-26): nil interface is nil; a
non-pointer is not nil; a nil pointer is nil; otherwise recurse on the
pointee.  The pointer-typed variants `rows` and `lobIn` model non-nil
pointers whose pointee is not itself nil-like, matching the source's net
result `false` on them. -/
def isNilArg : GoValue → Bool
  | .null => true
  | .ptrNil => true
  | .ptr v => isNilArg v
  | _ => false

/-- Model of the inner shift of `reorderNVArgs` (convert.go:33-35):
`for j := i; j > pos; j-- { nvargs[j] = nvargs[j-1] }`, with the loop
variable as the recursion argument. -/
def shiftRight (pos : Nat) : Nat → List NamedValue → List NamedValue
  | 0, a => a
  | j + 1, a =>
    if pos < j + 1 then shiftRight pos j (a.set (j + 1) (a.getD j nvDefault))
    else a

/-- Model of one rotation of `reorderNVArgs` (convert.go:32-36):
`tmp := nvargs[i]`, shift `pos..i-1` one slot to the right, then
`nvargs[pos] = tmp`. -/
def rotateToPos (pos i : Nat) (a : List NamedValue) : List NamedValue :=
  (shiftRight pos i a).set pos (a.getD i nvDefault)

/-- Model of the scan of `reorderNVArgs` (convert.go:30-38): `i` runs from
`pos` while `i < len(nvargs)`; every entry with a non-empty name equal to
`name` is rotated to `pos`.  Note the source has no `break` after a
rotation, so a later duplicate is rotated as well.  `fuel` counts the
remaining iterations (rotations preserve the length, so starting it at
`a.length - pos` makes the guard `i < a.length`, not the fuel, end the
loop, exactly as in the source). -/
def reorderLoop (pos : Nat) (name : String) : Nat → Nat → List NamedValue → List NamedValue
  | _, 0, a => a
  | i, fuel + 1, a =>
    if i < a.length then
      reorderLoop pos name (i + 1) fuel
        (if (a.getD i nvDefault).Name ≠ "" ∧ (a.getD i nvDefault).Name = name
         then rotateToPos pos i a else a)
    else a

/-- Model of `reorderNVArgs` (convert.go:29-39). -/
def reorderNVArgs (pos : Nat) (name : String) (a : List NamedValue) : List NamedValue :=
  reorderLoop pos name pos (a.length - pos) a

/-- Model of the `driver.Valuer` unwrap loop of `convertArg`
(convert.go:44-53): while the value is not nil and is a producer, replace
it by the producer's output; a producer failure is returned unchanged. -/
def convertArgLoop (v : GoValue) : Except DriverError GoValue :=
  if isNilArg v then .ok v
  else
    match v with
    | .valuer (some e) _ => .error e
    | .valuer none inner => convertArgLoop inner
    | _ => .ok v

/-- Model of `convertArg` (convert.go:41-56): unwrap producers, then let
the field convert the resolved value. -/
def convertArg (field : ParameterField) (v : GoValue) : Except DriverError GoValue :=
  match convertArgLoop v with
  | .error e => .error e
  | .ok r => field.Convert r

/-- Naive Levenshtein edit distance on character lists. -/
def levDist : List Char → List Char → Nat
  | [], ys => ys.length
  | x :: xs, [] => (x :: xs).length
  | x :: xs, y :: ys =>
    if x = y then levDist xs ys
    else 1 + min (levDist xs (y :: ys)) (min (levDist (x :: xs) ys) (levDist xs ys))
termination_by xs ys => xs.length + ys.length

/-- Modelled from the spec: `levenshtein.MinString` lives in
`driver/internal/protocol/levenshtein`, which is not part of the sources
given here; the spec describes it as the field name minimizing the
case-insensitive Levenshtein distance to the supplied name, ties broken
by declaration order.  It only feeds the suggestion inside the
`invalidArgName` diagnostic. -/
def minString (fields : List ParameterField) (name : String) : String :=
  match fields with
  | [] => ""
  | f :: rest =>
    (rest.foldl
      (fun best g =>
        if levDist g.Name.toLower.toList name.toLower.toList <
            levDist best.toLower.toList name.toLower.toList
        then g.Name else best)
      f.Name)

/-- Model of the per-argument body shared by the exec row loop
(convert.go:77-98) and the query loop (convert.go:120-138): reject an out
field, an `sql.Out` argument and a named argument; convert the value in
place; if the converted value is a `*p.LobInDescr`, fetch its first
chunk. -/
def convertCell (field : ParameterField) (nv : NamedValue) (chunkSize : Nat) :
    Except DriverError NamedValue :=
  if field.Out then .error (.outFieldNotAllowed field.Name)
  else if (match nv.Value with | .out _ _ => true | _ => false) then .error .outArgNotAllowed
  else if nv.Name ≠ "" then .error (.namedNotSupported nv.Name)
  else
    match convertArg field nv.Value with
    | .error e => .error (.fieldConv field.Name e)
    | .ok v =>
      match v with
      | .lobIn d =>
        match d.fetchNext chunkSize with
        | .error e => .error e
        | .ok d' => .ok { nv with Value := .lobIn d' }
      | v => .ok { nv with Value := v }

/-- True on a converted cell value that still owes LOB chunks: the source
sets `hasAddLobData` when the freshly primed descriptor does not report
`IsLastData` (convert.go:95-97). -/
def cellOwes : GoValue → Bool
  | .lobIn d => !d.isLastData
  | _ => false

/-- One row of the exec batch (convert.go:74-99): convert every cell of
the row in declared-field order. -/
def convertExecRow (fields : List ParameterField) (row : List NamedValue) (chunkSize : Nat) :
    Except DriverError (List NamedValue) :=
  match fields, row with
  | [], _ => .ok []
  | _, [] => .ok []
  | f :: fs, nv :: nvs =>
    match convertCell f nv chunkSize with
    | .error e => .error e
    | .ok nv' =>
      match convertExecRow fs nvs chunkSize with
      | .error e => .error e
      | .ok rest => .ok (nv' :: rest)

/-- The row loop of `convertExecArgs` (convert.go:72-103): `i` is the
current row index; a row index is recorded in `addLobDataRecs` when the
row owes LOB chunks or it is the last row. -/
def convertExecRows (fields : List ParameterField) (chunkSize : Nat) :
    Nat → List (List NamedValue) → Except DriverError (List Nat × List (List NamedValue))
  | _, [] => .ok ([], [])
  | i, row :: rest =>
    match convertExecRow fields row chunkSize with
    | .error e => .error e
    | .ok row' =>
      match convertExecRows fields chunkSize (i + 1) rest with
      | .error e => .error e
      | .ok (recs, rest') =>
        .ok ((if row'.any (fun nv => cellOwes nv.Value) || rest.isEmpty then i :: recs else recs),
          row' :: rest')

/-- Recursion core of `chunkRows`: the fuel bounds the number of rows
and is initialised with the list length, which always suffices for
`k ≥ 1` (each step drops at least one cell). -/
def chunkRowsGo (k : Nat) : Nat → List NamedValue → List (List NamedValue)
  | _, [] => []
  | 0, _ :: _ => []
  | fuel + 1, nv :: nvs => ((nv :: nvs).take k) :: chunkRowsGo k fuel (nvs.drop (k - 1))

/-- Split the flat argument list into rows of `k` cells (the source
addresses cell `(i*numField)+j` directly; `k` is always `numField ≥ 1`
at the call site). -/
def chunkRows (k : Nat) (l : List NamedValue) : List (List NamedValue) :=
  chunkRowsGo k l.length l

/-- Model of `convertExecArgs` (convert.go:64-105).  The result `none`
models the Go runtime panic `integer divide by zero` raised by
`len(nvargs) % numField` when the field list is empty; otherwise the
mutated argument list is returned next to `addLobDataRecs`. -/
def convertExecArgs (fields : List ParameterField) (nvargs : List NamedValue)
    (chunkSize : Nat) : Option (Except DriverError (List Nat × List NamedValue)) :=
  if fields.length = 0 then none
  else if nvargs.length % fields.length ≠ 0 then
    some (.error (.arity nvargs.length fields.length))
  else
    some
      (match convertExecRows fields chunkSize 0 (chunkRows fields.length nvargs) with
       | .error e => .error e
       | .ok (recs, rows) => .ok (recs, rows.flatten))

/-- Model of `convertQueryArgs` (convert.go:113-141): exactly one row,
with the same per-cell treatment as exec. -/
def convertQueryArgs (fields : List ParameterField) (nvargs : List NamedValue)
    (chunkSize : Nat) : Except DriverError (List NamedValue) :=
  if nvargs.length ≠ fields.length then
    .error (.arity nvargs.length fields.length)
  else
    convertExecRow fields nvargs chunkSize

/-- Model of the `callArgs` result type (convert.go:148-151). -/
structure CallArgs where
  inFields : List ParameterField
  outFields : List ParameterField
  inArgs : List NamedValue
  outArgs : List NamedValue

/-- Model of `newCallArgs` (convert.go:153-160). -/
def newCallArgs : CallArgs :=
  ⟨[], [], [], []⟩

/-- The `sql.Out` type assertion `out, isOut := nvarg.Value.(sql.Out)`:
`some` carries the wrapper's `In` flag and `Dest`. -/
def asSqlOut : GoValue → Option (Bool × GoValue)
  | .out b d => some (b, d)
  | _ => none

/-- Model of the LOB priming step of the field loops (convert.go:200-204):
if the entry's current value is a `*p.LobInDescr`, fetch its first chunk
in place. -/
def primeLobValue (nv : NamedValue) (chunkSize : Nat) : Except DriverError NamedValue :=
  match nv.Value with
  | .lobIn d =>
    match d.fetchNext chunkSize with
    | .error e => .error e
    | .ok d' => .ok { nv with Value := .lobIn d' }
  | _ => .ok nv

/-- The `field.In()` block of the call field loop (convert.go:186-198)
before LOB priming.  It returns the entry as left by the source plus the
wrapper assertion as held in the source's local variable `out`: for an
out-wrapped argument the converted destination is assigned only to that
local copy (`out.Dest, err = convertArg(...)`), so the entry itself keeps
the original wrapper while the local copy carries the converted
destination (which the `field.Out()` block later inspects). -/
def callInStep (field : ParameterField) (nv : NamedValue)
    (outAsn : Option (Bool × GoValue)) :
    Except DriverError (NamedValue × Option (Bool × GoValue)) :=
  match outAsn with
  | some (outIn, dest) =>
    if outIn then
      match convertArg field dest with
      | .error e => .error (.fieldConv field.Name e)
      | .ok d => .ok (nv, some (outIn, d))
    else .error (.inArgWithOutField field.Name)
  | none =>
    match convertArg field nv.Value with
    | .error e => .error (.fieldConv field.Name e)
    | .ok v => .ok ({ nv with Value := v }, none)

/-- The `field.In()` block of the call field loop (convert.go:186-207):
when the field has the in direction, run `callInStep` and the LOB
priming on the entry's (possibly converted) value, then append the
entry and the field to `inArgs`/`inFields`; otherwise leave everything
unchanged.  Returns the entry, the wrapper assertion as held in the
source's local `out`, and the updated classification. -/
def callInPhase (field : ParameterField) (nv : NamedValue)
    (outAsn : Option (Bool × GoValue)) (chunkSize : Nat) (ca : CallArgs) :
    Except DriverError (NamedValue × Option (Bool × GoValue) × CallArgs) :=
  if field.In then
    match callInStep field nv outAsn with
    | .error e => .error e
    | .ok (nv1, outAsn1) =>
      match primeLobValue nv1 chunkSize with
      | .error e => .error e
      | .ok nv2 =>
        .ok (nv2, outAsn1,
          { ca with inArgs := ca.inArgs ++ [nv2], inFields := ca.inFields ++ [field] })
  else .ok (nv, outAsn, ca)

/-- The `field.Out()` block of the call field loop (convert.go:209-218):
when the field has the out direction, the argument must be an `sql.Out`
wrapper whose destination is not a `*sql.Rows` (note the check reads
the source's local `out`, whose destination an in+out field has already
replaced by the converted value); the entry and the field are appended
to `outArgs`/`outFields`. -/
def callOutPhase (field : ParameterField) (nv2 : NamedValue)
    (outAsn2 : Option (Bool × GoValue)) (ca2 : CallArgs) : Except DriverError CallArgs :=
  if field.Out then
    match outAsn2 with
    | none => .error (.outArgWithNonOutField field.Name)
    | some (_, d) =>
      match d with
      | .rows => .error (.invalidOutputParamType "*sql.Rows")
      | _ =>
        .ok { ca2 with outArgs := ca2.outArgs ++ [nv2],
                       outFields := ca2.outFields ++ [field] }
  else .ok ca2

/-- The field loop of `convertCallArgs` (convert.go:171-219), processing
field `i` against the window `prm` (the source's `prmnvargs`):
reorder the window so a matching named argument sits at `i`, check the
name, then run the `field.In()` and `field.Out()` blocks, threading the
updated window.  `fields` is the full field list (used for the
did-you-mean suggestion), `fs` the remaining fields. -/
def callLoop (fields : List ParameterField) (chunkSize : Nat) :
    List ParameterField → Nat → List NamedValue → CallArgs →
    Except DriverError (CallArgs × List NamedValue)
  | [], _, prm, ca => .ok (ca, prm)
  | field :: fs, i, prm0, ca =>
    let prm := reorderNVArgs i field.Name prm0
    let nv := prm.getD i nvDefault
    if nv.Name ≠ "" ∧ nv.Name ≠ field.Name then
      .error (.invalidArgName nv.Name (minString fields nv.Name))
    else
      match callInPhase field nv (asSqlOut nv.Value) chunkSize ca with
      | .error e => .error e
      | .ok (nv2, outAsn2, ca2) =>
        match callOutPhase field nv2 outAsn2 ca2 with
        | .error e => .error e
        | .ok ca3 => callLoop fields chunkSize fs (i + 1) (prm.set i nv2) ca3

/-- The trailing table-output loop of `convertCallArgs`
(convert.go:222-232): every argument beyond the field list must be an
`sql.Out` whose `Dest` is a `*sql.Rows`; it is appended to `outArgs`
only. -/
def callTrailing : Nat → List NamedValue → CallArgs → Except DriverError CallArgs
  | _, [], ca => .ok ca
  | i, nv :: rest, ca =>
    match asSqlOut nv.Value with
    | none => .error (.trailingNotOutParam nv.Value.typeName i)
    | some (_, d) =>
      match d with
      | .rows => callTrailing (i + 1) rest { ca with outArgs := ca.outArgs ++ [nv] }
      | _ => .error (.trailingDestNotRows d.typeName i)

/-- Model of `convertCallArgs` (convert.go:162-234).  The mutated
argument list (reordered, converted prefix followed by the untouched
trailing arguments) is returned next to the classification. -/
def convertCallArgs (fields : List ParameterField) (nvargs : List NamedValue)
    (chunkSize : Nat) : Except DriverError (CallArgs × List NamedValue) :=
  if nvargs.length < fields.length then
    .error (.arity nvargs.length fields.length)
  else
    match callLoop fields chunkSize fields 0 (nvargs.take fields.length) newCallArgs with
    | .error e => .error e
    | .ok (ca, prm) =>
      match callTrailing fields.length (nvargs.drop fields.length) ca with
      | .error e => .error e
      | .ok ca' => .ok (ca', prm ++ nvargs.drop fields.length)

/-- Ordinal and name of an entry: the caller-visible identity of a
`NamedValue` apart from its (converted) value. -/
def projPair (nv : NamedValue) : Nat × String :=
  (nv.Ordinal, nv.Name)

/-- A cursor-destination output wrapper: an `sql.Out` whose `Dest` is a
`*sql.Rows`. -/
def isCursorOut : GoValue → Bool
  | .out _ .rows => true
  | _ => false

/-- The error the trailing-argument loop raises at index `idx` for the
offending value `v` (convert.go:226 and convert.go:229). -/
def mkTrailingErr (idx : Nat) (v : GoValue) : DriverError :=
  match asSqlOut v with
  | none => .trailingNotOutParam v.typeName idx
  | some (_, d) => .trailingDestNotRows d.typeName idx

/-- True when converting this cell yields a LOB whose first prime
succeeds and reports that more data follows. -/
def cellOwesPre (field : ParameterField) (nv : NamedValue) : Bool :=
  match convertArg field nv.Value with
  | .ok (.lobIn d) => d.fetchErr.isNone && !d.lastData
  | _ => false

/-- True when some cell of the row converts to a LOB that does not
signal last-data on its first prime. -/
def rowOwes (fields : List ParameterField) (row : List NamedValue) : Bool :=
  (fields.zip row).any fun fr => cellOwesPre fr.1 fr.2

/-- The row indices the exec row loop records, starting at row index
`i`: every row owing LOB continuations plus the final row. -/
def collectRecs (fields : List ParameterField) : Nat → List (List NamedValue) → List Nat
  | _, [] => []
  | i, row :: rest =>
    (if rowOwes fields row || rest.isEmpty then [i] else []) ++ collectRecs fields (i + 1) rest

/-- Row `i` of the flat batched argument list. -/
def execRow (fields : List ParameterField) (nvargs : List NamedValue) (i : Nat) :
    List NamedValue :=
  (nvargs.drop (i * fields.length)).take fields.length

/-- The scan condition of `reorderNVArgs` at index `j`: the entry bears
the (non-empty) target name. -/
def nvMatch (a : List NamedValue) (j : Nat) (t : String) : Prop :=
  (a.getD j nvDefault).Name ≠ "" ∧ (a.getD j nvDefault).Name = t

instance (a : List NamedValue) (j : Nat) (t : String) : Decidable (nvMatch a j t) := by
  unfold nvMatch
  infer_instance

/-- An input-only field with the given name whose converter is the
identity; used for concrete instances. -/
def idField (name : String) : ParameterField :=
  ⟨name, true, false, fun v => .ok v⟩

/-- An input-only field converting every value to a fresh, unfetched
LOB descriptor that holds more than one chunk of data. -/
def lobField : ParameterField :=
  ⟨"", true, false, fun _ => .ok (.lobIn ⟨0, none, false⟩)⟩

/-- Decidable equality for `Except`, so that concrete runs of the
entry points can be checked by `decide`. -/
instance exceptDecidableEq {ε α : Type} [DecidableEq ε] [DecidableEq α] :
    DecidableEq (Except ε α) := fun x y =>
  match x, y with
  | .error a, .error b =>
    if h : a = b then .isTrue (h ▸ rfl) else .isFalse (fun hc => h (Except.error.inj hc))
  | .ok a, .ok b =>
    if h : a = b then .isTrue (h ▸ rfl) else .isFalse (fun hc => h (Except.ok.inj hc))
  | .error _, .ok _ => .isFalse (fun hc => Except.noConfusion hc)
  | .ok _, .error _ => .isFalse (fun hc => Except.noConfusion hc)

/-! ## Properties of `isNilArg` and the producer unwrap loop -/

/-- C10: NilProbe is invariant under taking a pointer: `isNilArg` agrees
on a value, a pointer to it and a pointer to such a pointer; it is true
on the absent markers, peels indirection levels transitively, and is
false on every non-reference, non-absent value. -/
theorem isNilArg_ptr_invariant (v d w : GoValue) (n : Int) (s : String) (b : Bool)
    (e : Option DriverError) :
    isNilArg (.ptr v) = isNilArg v ∧
    isNilArg (.ptr (.ptr v)) = isNilArg v ∧
    isNilArg .null = true ∧
    isNilArg .ptrNil = true ∧
    isNilArg (.ptr (.ptr .ptrNil)) = true ∧
    isNilArg (.prim n) = false ∧
    isNilArg (.str s) = false ∧
    isNilArg (.out b d) = false ∧
    isNilArg (.valuer e w) = false := by
  simp [isNilArg]

/-- C9: with an empty field list the arity check divides by zero, so
`convertExecArgs` panics (modelled by `none`) before any validation and
in particular never returns an arity error there; with at least one
field it is a well-defined total computation (always `some`). -/
theorem convertExecArgs_empty_fields_panics (fields : List ParameterField)
    (nvargs : List NamedValue) (chunkSize : Nat) :
    (fields.length = 0 → convertExecArgs fields nvargs chunkSize = none) ∧
    (fields.length ≠ 0 → (convertExecArgs fields nvargs chunkSize).isSome = true) := by
  constructor
  · intro h
    rw [convertExecArgs]
    simp [h]
  · intro h
    rw [convertExecArgs]
    simp only [h, if_false]
    split <;> simp

/-- Witness for C9: one argument against an empty field list panics;
one argument against one field does not. -/
theorem convertExecArgs_empty_fields_panics_witness :
    convertExecArgs [] [⟨1, "", .prim 5⟩] 8 = none ∧
    (convertExecArgs [idField ""] [⟨1, "", .prim 5⟩] 8).isSome = true :=
  ⟨(convertExecArgs_empty_fields_panics [] [⟨1, "", .prim 5⟩] 8).1 rfl,
    (convertExecArgs_empty_fields_panics [idField ""] [⟨1, "", .prim 5⟩] 8).2 (by decide)⟩

theorem convertCell_ok (field : ParameterField) (nv nv' : NamedValue) (c : Nat)
    (h : convertCell field nv c = .ok nv') :
    nv'.Ordinal = nv.Ordinal ∧ nv'.Name = nv.Name ∧
    cellOwes nv'.Value = cellOwesPre field nv := by
  unfold convertCell at h
  split at h
  · exact absurd h (by simp)
  split at h
  · exact absurd h (by simp)
  split at h
  · exact absurd h (by simp)
  cases hc : convertArg field nv.Value with
  | error e => simp only [hc] at h; exact absurd h (by simp)
  | ok v =>
    simp only [hc] at h
    unfold cellOwesPre
    rw [hc]
    cases v with
    | lobIn d =>
      cases hf : d.fetchNext c with
      | error e => simp only [hf] at h; exact absurd h (by simp)
      | ok d' =>
        simp only [hf] at h
        injection h with h
        subst h
        unfold LobInDescr.fetchNext at hf
        cases hfe : d.fetchErr with
        | some e => simp only [hfe] at hf; exact absurd hf (by simp)
        | none =>
          simp only [hfe] at hf
          injection hf with hf
          subst hf
          simp [cellOwes, LobInDescr.isLastData, hfe]
    | null => injection h with h; subst h; exact ⟨rfl, rfl, rfl⟩
    | ptrNil => injection h with h; subst h; exact ⟨rfl, rfl, rfl⟩
    | ptr w => injection h with h; subst h; exact ⟨rfl, rfl, rfl⟩
    | prim n => injection h with h; subst h; exact ⟨rfl, rfl, rfl⟩
    | str s => injection h with h; subst h; exact ⟨rfl, rfl, rfl⟩
    | valuer e w => injection h with h; subst h; exact ⟨rfl, rfl, rfl⟩
    | out b d => injection h with h; subst h; exact ⟨rfl, rfl, rfl⟩
    | rows => injection h with h; subst h; exact ⟨rfl, rfl, rfl⟩

theorem convertExecRow_ok :
    ∀ (fields : List ParameterField) (row row' : List NamedValue) (c : Nat),
      fields.length = row.length →
      convertExecRow fields row c = .ok row' →
      row'.map projPair = row.map projPair ∧
      (row'.any fun nv => cellOwes nv.Value) = rowOwes fields row := by
  intro fields
  induction fields with
  | nil =>
    intro row row' c hlen h
    cases row with
    | nil =>
      injection h with h
      subst h
      simp [rowOwes]
    | cons nv nvs => simp at hlen
  | cons f fs ih =>
    intro row row' c hlen h
    cases row with
    | nil => simp at hlen
    | cons nv nvs =>
      unfold convertExecRow at h
      cases hc : convertCell f nv c with
      | error e => simp only [hc] at h; exact absurd h (by simp)
      | ok nv1 =>
        simp only [hc] at h
        cases hr : convertExecRow fs nvs c with
        | error e => simp only [hr] at h; exact absurd h (by simp)
        | ok rest =>
          simp only [hr] at h
          injection h with h
          subst h
          obtain ⟨ho, hn, hw⟩ := convertCell_ok f nv nv1 c hc
          obtain ⟨hm, ha⟩ := ih nvs rest c (by simpa using hlen) hr
          constructor
          · simp [projPair, ho, hn, hm]
          · simp [rowOwes, hw, ha, List.any_cons]

theorem collectRecs_lower (fields : List ParameterField) :
    ∀ (rows : List (List NamedValue)) (i j : Nat),
      j ∈ collectRecs fields i rows → i ≤ j := by
  intro rows
  induction rows with
  | nil => intro i j h; simp [collectRecs] at h
  | cons row rest ih =>
    intro i j h
    simp only [collectRecs, List.mem_append] at h
    rcases h with h | h
    · split at h
      · simp at h; omega
      · simp at h
    · have := ih (i + 1) j h; omega

theorem collectRecs_chain (fields : List ParameterField) :
    ∀ (rows : List (List NamedValue)) (i : Nat),
      List.Chain' (· < ·) (collectRecs fields i rows) := by
  intro rows
  induction rows with
  | nil => intro i; simp [collectRecs]
  | cons row rest ih =>
    intro i
    simp only [collectRecs]
    split
    · rw [List.singleton_append]
      refine List.chain'_cons'.2 ⟨?_, ih (i + 1)⟩
      intro b hb
      have hmem : b ∈ collectRecs fields (i + 1) rest := List.mem_of_mem_head? hb
      have := collectRecs_lower fields rest (i + 1) b hmem
      omega
    · simpa using ih (i + 1)

theorem collectRecs_ne_nil (fields : List ParameterField) :
    ∀ (rows : List (List NamedValue)) (i : Nat),
      rows ≠ [] → collectRecs fields i rows ≠ [] := by
  intro rows
  induction rows with
  | nil => intro i h; exact absurd rfl h
  | cons row rest ih =>
    intro i _
    by_cases hrest : rest = []
    · subst hrest
      simp [collectRecs]
    · simp only [collectRecs]
      intro hcontra
      exact ih (i + 1) hrest (List.append_eq_nil.1 hcontra).2

theorem collectRecs_getLast? (fields : List ParameterField) :
    ∀ (rows : List (List NamedValue)) (i : Nat),
      rows ≠ [] →
      (collectRecs fields i rows).getLast? = some (i + (rows.length - 1)) := by
  intro rows
  induction rows with
  | nil => intro i h; exact absurd rfl h
  | cons row rest ih =>
    intro i _
    by_cases hrest : rest = []
    · subst hrest
      simp [collectRecs]
    · have hne : collectRecs fields (i + 1) rest ≠ [] := collectRecs_ne_nil fields rest (i + 1) hrest
      simp only [collectRecs]
      rw [List.getLast?_append_of_ne_nil _ hne, ih (i + 1) hrest]
      have hlen : rest.length ≠ 0 := fun hz => hrest (List.length_eq_zero.1 hz)
      congr 1
      simp only [List.length_cons]
      omega

theorem collectRecs_mem (fields : List ParameterField) :
    ∀ (rows : List (List NamedValue)) (i j : Nat),
      j ∈ collectRecs fields i rows ↔
        ∃ k, k < rows.length ∧ j = i + k ∧
          (rowOwes fields (rows.getD k []) = true ∨ k = rows.length - 1) := by
  intro rows
  induction rows with
  | nil => intro i j; simp [collectRecs]
  | cons row rest ih =>
    intro i j
    simp only [collectRecs, List.mem_append]
    constructor
    · intro h
      rcases h with h | h
      · split at h
        · rename_i hcond
          simp at h
          subst h
          refine ⟨0, by simp, by omega, ?_⟩
          rw [Bool.or_eq_true] at hcond
          rcases hcond with hb | hb
          · left; simpa using hb
          · right
            have : rest = [] := List.isEmpty_iff.1 hb
            simp [this]
        · simp at h
      · rcases (ih (i + 1) j).1 h with ⟨k, hk, hj, hcond⟩
        refine ⟨k + 1, by simp only [List.length_cons]; omega, by omega, ?_⟩
        rcases hcond with hc | hc
        · left; simpa using hc
        · right
          simp only [List.length_cons]
          omega
    · rintro ⟨k, hk, hj, hcond⟩
      cases k with
      | zero =>
        left
        have hcond' : (rowOwes fields row || rest.isEmpty) = true := by
          rcases hcond with hc | hc
          · simp only [List.getD_cons_zero] at hc
            simp [hc]
          · have : rest.length = 0 := by
              simp only [List.length_cons] at hc
              omega
            simp [List.length_eq_zero.1 this]
        rw [if_pos hcond']
        simp [hj]
      | succ k =>
        right
        apply (ih (i + 1) j).2
        refine ⟨k, by simp only [List.length_cons] at hk; omega, by omega, ?_⟩
        rcases hcond with hc | hc
        · left; simpa using hc
        · right
          simp only [List.length_cons] at hc hk
          omega

theorem chunkRowsGo_fuel (k : Nat) :
    ∀ (n m : Nat) (l : List NamedValue), l.length ≤ n → l.length ≤ m →
      chunkRowsGo k n l = chunkRowsGo k m l := by
  intro n
  induction n with
  | zero =>
    intro m l hn hm
    have : l = [] := List.length_eq_zero.1 (Nat.le_zero.1 hn)
    subst this
    cases m <;> rfl
  | succ n ih =>
    intro m l hn hm
    cases l with
    | nil => cases m <;> rfl
    | cons nv nvs =>
      cases m with
      | zero => simp at hm
      | succ m =>
        rw [chunkRowsGo, chunkRowsGo]
        congr 1
        apply ih
        · simp only [List.length_drop]; simp at hn; omega
        · simp only [List.length_drop]; simp at hm; omega

theorem chunkRows_nil (k : Nat) : chunkRows k [] = [] :=
  rfl

theorem chunkRows_cons (k : Nat) (nv : NamedValue) (nvs : List NamedValue) :
    chunkRows k (nv :: nvs) = ((nv :: nvs).take k) :: chunkRows k (nvs.drop (k - 1)) := by
  unfold chunkRows
  rw [show (nv :: nvs).length = nvs.length + 1 from rfl, chunkRowsGo]
  congr 1
  apply chunkRowsGo_fuel
  · simp only [List.length_drop]; omega
  · exact Nat.le_refl _

theorem chunkRows_flatten (k : Nat) (hk : k ≠ 0) :
    ∀ (n : Nat) (l : List NamedValue), l.length ≤ n → (chunkRows k l).flatten = l := by
  intro n
  induction n with
  | zero =>
    intro l hl
    have : l = [] := List.length_eq_zero.1 (Nat.le_zero.1 hl)
    subst this
    simp [chunkRows_nil]
  | succ n ih =>
    intro l hl
    cases l with
    | nil => simp [chunkRows_nil]
    | cons nv nvs =>
      rw [chunkRows_cons]
      simp only [List.flatten_cons]
      rw [ih (nvs.drop (k - 1)) (by simp only [List.length_drop]; simp at hl; omega)]
      obtain ⟨k', rfl⟩ : ∃ k', k = k' + 1 := ⟨k - 1, by omega⟩
      simp only [List.take_succ_cons, Nat.add_sub_cancel, List.cons_append, List.cons.injEq,
        true_and]
      exact List.take_append_drop k' nvs

theorem chunkRows_length (k : Nat) (hk : k ≠ 0) :
    ∀ (n : Nat) (l : List NamedValue), l.length ≤ n → k ∣ l.length →
      (chunkRows k l).length = l.length / k := by
  intro n
  induction n with
  | zero =>
    intro l hl _
    have : l = [] := List.length_eq_zero.1 (Nat.le_zero.1 hl)
    subst this
    simp [chunkRows_nil]
  | succ n ih =>
    intro l hl hdvd
    cases l with
    | nil => simp [chunkRows_nil]
    | cons nv nvs =>
      have hklen : k ≤ (nv :: nvs).length := by
        rcases hdvd with ⟨m, hm⟩
        cases m with
        | zero => simp at hm
        | succ m =>
          rw [hm]
          calc k = k * 1 := by omega
          _ ≤ k * (m + 1) := Nat.mul_le_mul_left k (by omega)
      rw [chunkRows_cons]
      simp only [List.length_cons]
      have hdrop : (nvs.drop (k - 1)).length = (nv :: nvs).length - k := by
        simp only [List.length_drop, List.length_cons]
        omega
      have ihk := ih (nvs.drop (k - 1))
        (by simp only [List.length_drop]; simp only [List.length_cons] at hl; omega)
        (by rw [hdrop]; exact Nat.dvd_sub' hdvd (Nat.dvd_refl k))
      rw [ihk, hdrop]
      conv_rhs => rw [Nat.div_eq_sub_div (Nat.pos_of_ne_zero hk)
        (show k ≤ nvs.length + 1 by simpa using hklen)]
      simp only [List.length_cons]

theorem chunkRows_mem_length (k : Nat) (hk : k ≠ 0) :
    ∀ (n : Nat) (l row : List NamedValue), l.length ≤ n → k ∣ l.length →
      row ∈ chunkRows k l → row.length = k := by
  intro n
  induction n with
  | zero =>
    intro l row hl _ hmem
    have : l = [] := List.length_eq_zero.1 (Nat.le_zero.1 hl)
    subst this
    simp [chunkRows_nil] at hmem
  | succ n ih =>
    intro l row hl hdvd hmem
    cases l with
    | nil => simp [chunkRows_nil] at hmem
    | cons nv nvs =>
      have hklen : k ≤ (nv :: nvs).length := by
        rcases hdvd with ⟨m, hm⟩
        cases m with
        | zero => simp at hm
        | succ m =>
          rw [hm]
          calc k = k * 1 := by omega
          _ ≤ k * (m + 1) := Nat.mul_le_mul_left k (by omega)
      rw [chunkRows_cons] at hmem
      rcases List.mem_cons.1 hmem with hhead | htail
      · subst hhead
        simp only [List.length_take]
        omega
      · refine ih (nvs.drop (k - 1)) row ?_ ?_ htail
        · simp only [List.length_drop]
          simp only [List.length_cons] at hl
          omega
        · have hdrop : (nvs.drop (k - 1)).length = (nv :: nvs).length - k := by
            simp only [List.length_drop, List.length_cons]
            omega
          rw [hdrop]
          exact Nat.dvd_sub' hdvd (Nat.dvd_refl k)

theorem chunkRows_getD (k : Nat) (hk : k ≠ 0) :
    ∀ (n : Nat) (l : List NamedValue) (i : Nat), l.length ≤ n →
      (chunkRows k l).getD i [] = (l.drop (i * k)).take k := by
  intro n
  induction n with
  | zero =>
    intro l i hl
    have : l = [] := List.length_eq_zero.1 (Nat.le_zero.1 hl)
    subst this
    simp [chunkRows_nil]
  | succ n ih =>
    intro l i hl
    cases l with
    | nil => simp [chunkRows_nil]
    | cons nv nvs =>
      rw [chunkRows_cons]
      cases i with
      | zero => simp
      | succ i =>
        simp only [List.getD_cons_succ]
        rw [ih (nvs.drop (k - 1)) i (by simp only [List.length_drop]; simp at hl; omega)]
        rw [List.drop_drop]
        have harith : (i + 1) * k = (i * k + (k - 1)) + 1 := by
          have : (i + 1) * k = i * k + k := by ring
          omega
        rw [harith, List.drop_succ_cons, Nat.add_comm (k - 1) (i * k)]

theorem convertExecRows_ok (fields : List ParameterField) (c : Nat) :
    ∀ (rows : List (List NamedValue)) (i : Nat) (recs : List Nat)
      (rows' : List (List NamedValue)),
      (∀ row ∈ rows, fields.length = row.length) →
      convertExecRows fields c i rows = .ok (recs, rows') →
      recs = collectRecs fields i rows ∧
      rows'.map (List.map projPair) = rows.map (List.map projPair) := by
  intro rows
  induction rows with
  | nil =>
    intro i recs rows' _ h
    injection h with h
    injection h with h1 h2
    subst h1; subst h2
    exact ⟨rfl, rfl⟩
  | cons row rest ih =>
    intro i recs rows' hlen h
    unfold convertExecRows at h
    cases hr : convertExecRow fields row c with
    | error e => simp only [hr] at h; exact absurd h (by simp)
    | ok row1 =>
      simp only [hr] at h
      cases hrs : convertExecRows fields c (i + 1) rest with
      | error e => simp only [hrs] at h; exact absurd h (by simp)
      | ok p =>
        obtain ⟨recs1, rest1⟩ := p
        simp only [hrs] at h
        injection h with h
        injection h with h1 h2
        subst h1; subst h2
        obtain ⟨hm, ha⟩ := convertExecRow_ok fields row row1 c (hlen row (by simp)) hr
        obtain ⟨hrecs, hrest⟩ := ih (i + 1) recs1 rest1 (fun r hr' => hlen r (by simp [hr'])) hrs
        constructor
        · rw [ha, hrecs]
          simp only [collectRecs]
          split <;> simp
        · simp [hm, hrest]

theorem convertExecArgs_ok_elim (fields : List ParameterField) (nvargs : List NamedValue)
    (c : Nat) (recs : List Nat) (nvargs' : List NamedValue)
    (h : convertExecArgs fields nvargs c = some (.ok (recs, nvargs'))) :
    fields.length ≠ 0 ∧ nvargs.length % fields.length = 0 ∧
    ∃ rows', convertExecRows fields c 0 (chunkRows fields.length nvargs) = .ok (recs, rows') ∧
      nvargs' = rows'.flatten := by
  unfold convertExecArgs at h
  split at h
  · exact absurd h (by simp)
  split at h
  · injection h with h
    exact absurd h (by simp)
  rename_i h1 h2
  refine ⟨h1, by simpa using h2, ?_⟩
  cases hrows : convertExecRows fields c 0 (chunkRows fields.length nvargs) with
  | error e =>
    simp only [hrows] at h
    injection h with h
    exact absurd h (by simp)
  | ok p =>
    obtain ⟨recs1, rows'⟩ := p
    simp only [hrows] at h
    injection h with h
    injection h with h
    injection h with ha hb
    subst ha
    exact ⟨rows', rfl, hb.symm⟩

/-- C3 counterexample: the empty argument list is not a positive
multiple of the single-field count, yet `convertExecArgs` accepts it
with zero rows instead of returning the arity error. -/
theorem convertExecArgs_zero_args_accepted :
    convertExecArgs [idField "Z"] [] 8 = some (.ok ([], [])) ∧ (0 : Nat) % 1 = 0 := by
  constructor
  · decide
  · rfl

/-- C3 (amended): with a non-empty field list, `convertExecArgs`
returns the arity error carrying both counts whenever the argument
count is not a multiple of the field count, and on success the argument
count is `r · |F|` for some `r ≥ 0` (the empty batch, `r = 0`, is
accepted as well, so the multiple need not be positive). -/
theorem convertExecArgs_arity_spec (fields : List ParameterField)
    (nvargs nvargs' : List NamedValue) (c : Nat) (recs : List Nat) (h0 : fields ≠ []) :
    (nvargs.length % fields.length ≠ 0 →
      convertExecArgs fields nvargs c = some (.error (.arity nvargs.length fields.length))) ∧
    (convertExecArgs fields nvargs c = some (.ok (recs, nvargs')) →
      ∃ r, nvargs.length = r * fields.length) := by
  constructor
  · intro hmod
    unfold convertExecArgs
    rw [if_neg (fun hz => h0 (List.length_eq_zero.1 hz)), if_pos hmod]
  · intro h
    obtain ⟨h1, h2, -⟩ := convertExecArgs_ok_elim fields nvargs c recs nvargs' h
    exact ⟨nvargs.length / fields.length,
      (Nat.div_mul_cancel (Nat.dvd_of_mod_eq_zero h2)).symm⟩

/-- Witness for C3: three arguments against two fields yield the arity
error reporting both counts. -/
theorem convertExecArgs_arity_spec_witness :
    convertExecArgs [idField "A", idField "B"]
      [⟨1, "", .prim 1⟩, ⟨2, "", .prim 2⟩, ⟨3, "", .prim 3⟩] 8
      = some (.error (.arity 3 2)) :=
  (convertExecArgs_arity_spec [idField "A", idField "B"]
    [⟨1, "", .prim 1⟩, ⟨2, "", .prim 2⟩, ⟨3, "", .prim 3⟩] [] 8 []
    (List.cons_ne_nil _ _)).1 (by decide)

/-- C2 counterexample: the empty batch (`r = 0`) is accepted and
returns an empty record list, which has no last element at all, so the
record list cannot contain `r − 1`. -/
theorem convertExecArgs_empty_batch_recs :
    convertExecArgs [lobField] [] 9 = some (.ok ([], [])) ∧
    ([] : List Nat).getLast? = none := by
  constructor
  · decide
  · rfl

/-- C2 (amended): for every accepted batch that has `r ≥ 1` rows, the
returned LOB-continuation record list is strictly increasing, its last
element is `r − 1`, and it contains a row index `i` exactly when some
LOB of row `i` did not signal last-data on its first prime or `i` is
the final row; for the accepted empty batch (`r = 0`) the returned list
is empty instead. -/
theorem convertExecArgs_addLobDataRecs_spec (fields : List ParameterField)
    (nvargs nvargs' : List NamedValue) (c : Nat) (recs : List Nat) (r i : Nat)
    (h : convertExecArgs fields nvargs c = some (.ok (recs, nvargs')))
    (hr : nvargs.length = r * fields.length) (hr1 : 1 ≤ r) :
    List.Chain' (· < ·) recs ∧
    recs.getLast? = some (r - 1) ∧
    (i ∈ recs ↔ i < r ∧ (rowOwes fields (execRow fields nvargs i) = true ∨ i = r - 1)) := by
  obtain ⟨h1, h2, rows', hrows, hflat⟩ := convertExecArgs_ok_elim fields nvargs c recs nvargs' h
  have hdvd : fields.length ∣ nvargs.length := Nat.dvd_of_mod_eq_zero h2
  have hpos : 0 < fields.length := Nat.pos_of_ne_zero h1
  have hlenrows : (chunkRows fields.length nvargs).length = r := by
    rw [chunkRows_length fields.length h1 nvargs.length nvargs (Nat.le_refl _) hdvd, hr,
      Nat.mul_div_cancel _ hpos]
  have hmem : ∀ row ∈ chunkRows fields.length nvargs, fields.length = row.length := by
    intro row hrow
    exact (chunkRows_mem_length fields.length h1 nvargs.length nvargs row
      (Nat.le_refl _) hdvd hrow).symm
  obtain ⟨hrecs, -⟩ :=
    convertExecRows_ok fields c (chunkRows fields.length nvargs) 0 recs rows' hmem hrows
  subst hrecs
  have hne : chunkRows fields.length nvargs ≠ [] := by
    intro hz
    rw [hz] at hlenrows
    simp at hlenrows
    omega
  refine ⟨collectRecs_chain fields _ 0, ?_, ?_⟩
  · rw [collectRecs_getLast? fields _ 0 hne, hlenrows]
    congr 1
    omega
  · rw [collectRecs_mem fields _ 0 i]
    constructor
    · rintro ⟨k, hk, hik, hcond⟩
      rw [hlenrows] at hk hcond
      have hik' : i = k := by omega
      subst hik'
      refine ⟨hk, ?_⟩
      rcases hcond with hc | hc
      · left
        rw [chunkRows_getD fields.length h1 nvargs.length nvargs i (Nat.le_refl _)] at hc
        simpa [execRow] using hc
      · right; exact hc
    · rintro ⟨hk, hcond⟩
      refine ⟨i, by rw [hlenrows]; exact hk, by omega, ?_⟩
      rcases hcond with hc | hc
      · left
        rw [chunkRows_getD fields.length h1 nvargs.length nvargs i (Nat.le_refl _)]
        simpa [execRow] using hc
      · right; rw [hlenrows]; exact hc

/-- Witness for C2 at a one-row batch whose single cell converts to a
multi-chunk LOB: the record list is exactly `[0]`. -/
theorem convertExecArgs_addLobDataRecs_spec_witness :
    List.Chain' (· < ·) [0] ∧ ([0] : List Nat).getLast? = some (1 - 1) ∧
    ((0 : Nat) ∈ [0] ↔ 0 < 1 ∧
      (rowOwes [lobField] (execRow [lobField] [⟨1, "", .prim 5⟩] 0) = true ∨ 0 = 1 - 1)) :=
  convertExecArgs_addLobDataRecs_spec [lobField] [⟨1, "", .prim 5⟩]
    [⟨1, "", .lobIn ⟨1, none, false⟩⟩] 9 [0] 1 0 (by decide) (by decide) (by decide)

/-! ## The named-argument reorderer -/

theorem shiftRight_length (pos : Nat) :
    ∀ (j : Nat) (a : List NamedValue), (shiftRight pos j a).length = a.length := by
  intro j
  induction j with
  | zero => intro a; rfl
  | succ j ih =>
    intro a
    rw [shiftRight]
    split
    · rw [ih]
      simp
    · rfl

theorem rotateToPos_length (pos i : Nat) (a : List NamedValue) :
    (rotateToPos pos i a).length = a.length := by
  unfold rotateToPos
  rw [List.length_set, shiftRight_length]

theorem shiftRight_getElem? (pos : Nat) :
    ∀ (j : Nat) (a : List NamedValue), pos ≤ j → j < a.length → ∀ k,
      (shiftRight pos j a)[k]? = if pos < k ∧ k ≤ j then a[k - 1]? else a[k]? := by
  intro j
  induction j with
  | zero =>
    intro a _ _ k
    exact (if_neg (by omega)).symm
  | succ j ih =>
    intro a hpj hlen k
    rw [shiftRight]
    by_cases hp : pos < j + 1
    · rw [if_pos hp]
      have hlen' : j < (a.set (j + 1) (a.getD j nvDefault)).length := by
        rw [List.length_set]
        omega
      rw [ih (a.set (j + 1) (a.getD j nvDefault)) (by omega) hlen' k]
      by_cases h1 : pos < k ∧ k ≤ j
      · rw [if_pos h1, if_pos (by omega : pos < k ∧ k ≤ j + 1)]
        rw [List.getElem?_set, if_neg (by omega)]
      · rw [if_neg h1]
        by_cases h2 : k = j + 1
        · subst h2
          rw [List.getElem?_set, if_pos rfl, if_pos hlen,
            if_pos (⟨hp, Nat.le_refl _⟩ : pos < j + 1 ∧ j + 1 ≤ j + 1)]
          have hj : j < a.length := by omega
          simp [List.getD_eq_getElem?_getD, List.getElem?_eq_getElem hj]
        · rw [List.getElem?_set, if_neg (by omega), if_neg (by omega)]
    · rw [if_neg hp, if_neg (by omega)]

theorem rotateToPos_getElem? (pos i : Nat) (a : List NamedValue)
    (hpi : pos ≤ i) (hlen : i < a.length) (k : Nat) :
    (rotateToPos pos i a)[k]? =
      if k = pos then a[i]? else if pos < k ∧ k ≤ i then a[k - 1]? else a[k]? := by
  unfold rotateToPos
  rw [List.getElem?_set]
  by_cases hk : pos = k
  · subst hk
    rw [if_pos rfl, if_pos (by rw [shiftRight_length]; omega), if_pos rfl]
    simp [List.getD_eq_getElem?_getD, List.getElem?_eq_getElem hlen]
  · rw [if_neg hk, shiftRight_getElem? pos i a hpi hlen k,
      if_neg (show ¬(k = pos) from fun hc => hk hc.symm)]

theorem rotateToPos_eq_append (pos m : Nat) (a : List NamedValue)
    (hpm : pos ≤ m) (hlen : m < a.length) :
    rotateToPos pos m a
      = a.take pos ++ a.getD m nvDefault :: ((a.drop pos).take (m - pos) ++ a.drop (m + 1)) := by
  have htp : (a.take pos).length = pos := by
    rw [List.length_take]
    omega
  have hmid : ((a.drop pos).take (m - pos)).length = m - pos := by
    rw [List.length_take, List.length_drop]
    omega
  apply List.ext_getElem?
  intro k
  rw [rotateToPos_getElem? pos m a hpm hlen k]
  by_cases hk1 : k < pos
  · rw [if_neg (by omega), if_neg (by omega),
      List.getElem?_append_left (by rw [htp]; omega)]
    exact (List.getElem?_take_of_lt hk1).symm
  by_cases hk2 : k = pos
  · subst hk2
    rw [if_pos rfl, List.getElem?_append_right (by rw [htp]), htp, Nat.sub_self]
    simp [List.getD_eq_getElem?_getD, List.getElem?_eq_getElem hlen]
  · rw [if_neg hk2, List.getElem?_append_right (by rw [htp]; omega), htp]
    obtain ⟨t, ht⟩ : ∃ t, k - pos = t + 1 := ⟨k - pos - 1, by omega⟩
    rw [ht, List.getElem?_cons_succ]
    by_cases hk3 : k ≤ m
    · rw [if_pos (by omega)]
      rw [List.getElem?_append_left (by rw [hmid]; omega),
        List.getElem?_take_of_lt (by omega : t < m - pos), List.getElem?_drop]
      congr 1
      omega
    · rw [if_neg (by omega)]
      rw [List.getElem?_append_right (by rw [hmid]; omega), hmid, List.getElem?_drop]
      congr 1
      omega

theorem rotateToPos_perm (pos m : Nat) (a : List NamedValue)
    (hpm : pos ≤ m) (hlen : m < a.length) :
    List.Perm (rotateToPos pos m a) a := by
  rw [rotateToPos_eq_append pos m a hpm hlen]
  have hdecomp : a = a.take pos ++
      ((a.drop pos).take (m - pos) ++ a.getD m nvDefault :: a.drop (m + 1)) := by
    conv_lhs => rw [← List.take_append_drop pos a]
    congr 1
    conv_lhs => rw [← List.take_append_drop (m - pos) (a.drop pos)]
    congr 1
    rw [List.drop_drop, show pos + (m - pos) = m by omega, List.drop_eq_getElem_cons hlen]
    congr 1
    simp [List.getD_eq_getElem?_getD, List.getElem?_eq_getElem hlen]
  conv_rhs => rw [hdecomp]
  exact List.Perm.append_left _ List.perm_middle.symm

theorem reorderLoop_length (pos : Nat) (name : String) :
    ∀ (fuel i : Nat) (a : List NamedValue),
      (reorderLoop pos name i fuel a).length = a.length := by
  intro fuel
  induction fuel with
  | zero => intro i a; rfl
  | succ fuel ih =>
    intro i a
    rw [reorderLoop]
    split
    · split
      · rw [ih, rotateToPos_length]
      · rw [ih]
    · rfl

theorem reorderNVArgs_length (pos : Nat) (name : String) (a : List NamedValue) :
    (reorderNVArgs pos name a).length = a.length :=
  reorderLoop_length pos name (a.length - pos) pos a

theorem reorderLoop_no_match (pos : Nat) (name : String) :
    ∀ (fuel i : Nat) (a : List NamedValue),
      (∀ j, i ≤ j → j < a.length → ¬ nvMatch a j name) →
      reorderLoop pos name i fuel a = a := by
  intro fuel
  induction fuel with
  | zero => intro i a _; rfl
  | succ fuel ih =>
    intro i a hno
    rw [reorderLoop]
    split
    · rename_i hlt
      rw [if_neg (show ¬((a.getD i nvDefault).Name ≠ "" ∧ (a.getD i nvDefault).Name = name)
        from hno i (Nat.le_refl _) hlt)]
      exact ih (i + 1) a (fun j hj hjl => hno j (by omega) hjl)
    · rfl

theorem reorderLoop_unique_match (pos : Nat) (name : String) :
    ∀ (fuel i m : Nat) (a : List NamedValue),
      pos ≤ i → i ≤ m → m < a.length → nvMatch a m name →
      (∀ j, i ≤ j → j < a.length → nvMatch a j name → j = m) →
      a.length - i ≤ fuel →
      reorderLoop pos name i fuel a = rotateToPos pos m a := by
  intro fuel
  induction fuel with
  | zero => intro i m a _ him hm _ _ hfuel; omega
  | succ fuel ih =>
    intro i m a hpi him hm hmatch huniq hfuel
    rw [reorderLoop]
    rw [if_pos (by omega : i < a.length)]
    by_cases him' : i = m
    · subst him'
      rw [if_pos (show (a.getD i nvDefault).Name ≠ "" ∧ (a.getD i nvDefault).Name = name
        from hmatch)]
      apply reorderLoop_no_match
      intro j hj hjl hmatch'
      have hrl : (rotateToPos pos i a).length = a.length := rotateToPos_length pos i a
      rw [hrl] at hjl
      have hgt : (rotateToPos pos i a)[j]? = a[j]? := by
        rw [rotateToPos_getElem? pos i a hpi hm j, if_neg (by omega), if_neg (by omega)]
      have hma : nvMatch a j name := by
        unfold nvMatch at hmatch' ⊢
        rw [List.getD_eq_getElem?_getD, ← hgt, ← List.getD_eq_getElem?_getD]
        exact hmatch'
      have := huniq j (by omega) hjl hma
      omega
    · rw [if_neg (show ¬((a.getD i nvDefault).Name ≠ "" ∧ (a.getD i nvDefault).Name = name)
        from fun hmm => by
          have := huniq i (Nat.le_refl _) (by omega) hmm
          omega)]
      exact ih (i + 1) m a (by omega) (by omega) hm hmatch
        (fun j hj hjl hmm => huniq j (by omega) hjl hmm) (by omega)

theorem reorderLoop_perm (pos : Nat) (name : String) :
    ∀ (fuel i : Nat) (a : List NamedValue), pos ≤ i →
      List.Perm (reorderLoop pos name i fuel a) a := by
  intro fuel
  induction fuel with
  | zero => intro i a _; exact List.Perm.refl _
  | succ fuel ih =>
    intro i a hpi
    rw [reorderLoop]
    split
    · rename_i hlt
      split
      · exact (ih (i + 1) (rotateToPos pos i a) (by omega)).trans
          (rotateToPos_perm pos i a hpi hlt)
      · exact ih (i + 1) a (by omega)
    · exact List.Perm.refl _

theorem reorderNVArgs_perm (pos : Nat) (name : String) (a : List NamedValue) :
    List.Perm (reorderNVArgs pos name a) a :=
  reorderLoop_perm pos name (a.length - pos) pos a (Nat.le_refl _)

/-- C4 counterexample: with two entries sharing the target name, the
scan of the source (which has no `break`) rotates both matches, so the
last match, not the first, ends at the start position, and position 1
changes its logical content as well. -/
theorem reorderNVArgs_duplicate_names_moves_last :
    reorderNVArgs 0 "a" [⟨1, "a", .prim 1⟩, ⟨2, "a", .prim 2⟩]
      = [⟨2, "a", .prim 2⟩, ⟨1, "a", .prim 1⟩] ∧
    ([⟨2, "a", .prim 2⟩, ⟨1, "a", .prim 1⟩] : List NamedValue).getD 1 nvDefault
      ≠ ([⟨1, "a", .prim 1⟩, ⟨2, "a", .prim 2⟩] : List NamedValue).getD 1 nvDefault := by
  constructor
  · decide
  · decide

/-- C4 (amended): when at most one entry of the window at or after `p`
bears the (non-empty) target name `t`, `reorderNVArgs` rotates that
entry to position `p` by right-shifting the intermediate entries one
slot; it is a no-op when the match is already at `p` or no match
exists; and only position `p` changes its logical content, all other
positions keeping their original relative order.  (With duplicated
names the source rotates every match in scan order, so the last match
ends at `p`; see the counterexample.) -/
theorem reorderNVArgs_unique_match_spec (p : Nat) (t : String) (a : List NamedValue)
    (m : Nat) :
    ((∀ j, p ≤ j → j < a.length → ¬ nvMatch a j t) → reorderNVArgs p t a = a) ∧
    (p ≤ m → m < a.length → nvMatch a m t →
      (∀ j, p ≤ j → j < a.length → nvMatch a j t → j = m) →
      reorderNVArgs p t a
          = a.take p ++ a.getD m nvDefault :: ((a.drop p).take (m - p) ++ a.drop (m + 1)) ∧
        (m = p → reorderNVArgs p t a = a) ∧
        (reorderNVArgs p t a).getD p nvDefault = a.getD m nvDefault ∧
        (reorderNVArgs p t a).eraseIdx p = a.eraseIdx m ∧
        (reorderNVArgs p t a).length = a.length) := by
  constructor
  · intro hno
    exact reorderLoop_no_match p t (a.length - p) p a (fun j hj hjl => hno j hj hjl)
  · intro hpm hm hmatch huniq
    have hrot : reorderNVArgs p t a = rotateToPos p m a :=
      reorderLoop_unique_match p t (a.length - p) p m a (Nat.le_refl _) hpm hm hmatch
        huniq (by omega)
    have hclosed := rotateToPos_eq_append p m a hpm hm
    have htp : (a.take p).length = p := by
      rw [List.length_take]
      omega
    refine ⟨hrot.trans hclosed, ?_, ?_, ?_, ?_⟩
    · intro hmp
      subst hmp
      rw [hrot.trans hclosed, Nat.sub_self]
      simp only [List.take_zero, List.nil_append]
      conv_rhs => rw [← List.take_append_drop m a, List.drop_eq_getElem_cons hm]
      congr 1
      simp [List.getD_eq_getElem?_getD, List.getElem?_eq_getElem hm]
    · rw [hrot.trans hclosed, List.getD_eq_getElem?_getD,
        List.getElem?_append_right (by rw [htp]), htp, Nat.sub_self]
      simp
    · rw [hrot.trans hclosed,
        List.eraseIdx_append_of_length_le (Nat.le_of_eq htp), htp, Nat.sub_self]
      conv_rhs => rw [List.eraseIdx_eq_take_drop_succ]
      rw [show a.take m = a.take p ++ (a.drop p).take (m - p) from by
        rw [← List.take_add]
        congr 1
        omega]
      simp [List.append_assoc]
    · rw [hrot]
      exact rotateToPos_length p m a

/-- Witness for C4 at a two-entry window whose unique match for name
`b` sits at index 1: it is rotated to position 0 and the displaced
entry keeps its place right after it. -/
theorem reorderNVArgs_unique_match_spec_witness :
    reorderNVArgs 0 "b" [⟨1, "x", .prim 1⟩, ⟨2, "b", .prim 2⟩]
        = [⟨2, "b", .prim 2⟩, ⟨1, "x", .prim 1⟩] ∧
    (reorderNVArgs 0 "b" [⟨1, "x", .prim 1⟩, ⟨2, "b", .prim 2⟩]).getD 0 nvDefault
        = (⟨2, "b", .prim 2⟩ : NamedValue) := by
  have h := (reorderNVArgs_unique_match_spec 0 "b"
    [⟨1, "x", .prim 1⟩, ⟨2, "b", .prim 2⟩] 1).2 (by omega) (by decide) (by decide)
    (fun j h0 hlt hm => by
      simp only [List.length_cons, List.length_nil] at hlt
      interval_cases j
      · exact absurd hm (by decide)
      · rfl)
  refine ⟨h.1.trans (by decide), h.2.2.1.trans (by decide)⟩

/-! ## The call entry point -/

theorem asSqlOut_eq_some (v : GoValue) (b : Bool) (d : GoValue)
    (h : asSqlOut v = some (b, d)) : v = .out b d := by
  cases v <;> simp_all [asSqlOut]

theorem isCursorOut_eq_true (v : GoValue) (h : isCursorOut v = true) :
    ∃ b, v = .out b .rows := by
  cases v with
  | out b d =>
    cases d <;> simp_all [isCursorOut]
  | null => simp [isCursorOut] at h
  | ptrNil => simp [isCursorOut] at h
  | ptr w => simp [isCursorOut] at h
  | prim n => simp [isCursorOut] at h
  | str s => simp [isCursorOut] at h
  | valuer e w => simp [isCursorOut] at h
  | rows => simp [isCursorOut] at h
  | lobIn d => simp [isCursorOut] at h

theorem callInStep_ok (field : ParameterField) (nv nv1 : NamedValue)
    (outAsn outAsn1 : Option (Bool × GoValue))
    (h : callInStep field nv outAsn = .ok (nv1, outAsn1)) :
    nv1.Ordinal = nv.Ordinal ∧ nv1.Name = nv.Name := by
  unfold callInStep at h
  cases outAsn with
  | some p =>
    obtain ⟨outIn, dest⟩ := p
    simp only [] at h
    split at h
    · cases hc : convertArg field dest with
      | error e => simp only [hc] at h; exact absurd h (by simp)
      | ok d =>
        simp only [hc] at h
        injection h with h
        injection h with h1 h2
        subst h1
        exact ⟨rfl, rfl⟩
    · exact absurd h (by simp)
  | none =>
    simp only [] at h
    cases hc : convertArg field nv.Value with
    | error e => simp only [hc] at h; exact absurd h (by simp)
    | ok v =>
      simp only [hc] at h
      injection h with h
      injection h with h1 h2
      subst h1
      exact ⟨rfl, rfl⟩

theorem primeLobValue_ok (nv nv2 : NamedValue) (c : Nat)
    (h : primeLobValue nv c = .ok nv2) :
    nv2.Ordinal = nv.Ordinal ∧ nv2.Name = nv.Name := by
  unfold primeLobValue at h
  split at h
  · rename_i d hd
    cases hf : d.fetchNext c with
    | error e => simp only [hf] at h; exact absurd h (by simp)
    | ok d' =>
      simp only [hf] at h
      injection h with h
      subst h
      exact ⟨rfl, rfl⟩
  · injection h with h
    subst h
    exact ⟨rfl, rfl⟩

theorem list_set_getD_self {α : Type} (l : List α) (i : Nat) (d : α) :
    l.set i (l.getD i d) = l := by
  by_cases h : i < l.length
  · apply List.ext_getElem?
    intro n
    rw [List.getElem?_set]
    by_cases hn : i = n
    · subst hn
      rw [if_pos rfl, if_pos h]
      simp [List.getD_eq_getElem?_getD, List.getElem?_eq_getElem h]
    · rw [if_neg hn]
  · exact List.set_eq_of_length_le (by omega)

theorem list_getD_map {α β : Type} (f : α → β) (l : List α) (i : Nat) (d : α) :
    (l.map f).getD i (f d) = f (l.getD i d) := by
  simp only [List.getD_eq_getElem?_getD, List.getElem?_map]
  cases l[i]? <;> rfl

theorem map_projPair_set (prm : List NamedValue) (i : Nat) (nv2 : NamedValue)
    (h : projPair nv2 = projPair (prm.getD i nvDefault)) :
    (prm.set i nv2).map projPair = prm.map projPair := by
  rw [List.map_set, h, ← list_getD_map projPair prm i nvDefault, list_set_getD_self]

theorem callTrailing_ok :
    ∀ (rest : List NamedValue) (i : Nat) (ca ca' : CallArgs),
      callTrailing i rest ca = .ok ca' →
      ca'.inFields = ca.inFields ∧ ca'.outFields = ca.outFields ∧
      ca'.inArgs = ca.inArgs ∧ ca'.outArgs = ca.outArgs ++ rest ∧
      ∀ nv ∈ rest, isCursorOut nv.Value = true := by
  intro rest
  induction rest with
  | nil =>
    intro i ca ca' h
    injection h with h
    subst h
    exact ⟨rfl, rfl, rfl, by simp, by simp⟩
  | cons nv rest ih =>
    intro i ca ca' h
    rw [callTrailing] at h
    cases hs : asSqlOut nv.Value with
    | none => simp only [hs] at h; exact absurd h (by simp)
    | some p =>
      obtain ⟨b, d⟩ := p
      simp only [hs] at h
      cases d with
      | rows =>
        obtain ⟨t1, t2, t3, t4, t5⟩ := ih (i + 1) _ ca' h
        refine ⟨t1, t2, t3, ?_, ?_⟩
        · rw [t4]
          simp
        · intro nv' hnv'
          have hv := asSqlOut_eq_some nv.Value b GoValue.rows hs
          rcases List.mem_cons.1 hnv' with hh | ht
          · rw [hh, hv]
            rfl
          · exact t5 nv' ht
      | null => exact absurd h (by simp)
      | ptrNil => exact absurd h (by simp)
      | ptr w => exact absurd h (by simp)
      | prim n => exact absurd h (by simp)
      | str s => exact absurd h (by simp)
      | valuer e w => exact absurd h (by simp)
      | out b' d' => exact absurd h (by simp)
      | lobIn dd => exact absurd h (by simp)

theorem callTrailing_err :
    ∀ (rest : List NamedValue) (i k : Nat) (ca : CallArgs),
      (∀ j, j < k → isCursorOut ((rest.getD j nvDefault).Value) = true) →
      k < rest.length →
      isCursorOut ((rest.getD k nvDefault).Value) = false →
      callTrailing i rest ca
        = .error (mkTrailingErr (i + k) ((rest.getD k nvDefault).Value)) := by
  intro rest
  induction rest with
  | nil => intro i k ca _ hk _; simp at hk
  | cons nv rest ih =>
    intro i k ca hgood hk hbad
    rw [callTrailing]
    cases k with
    | zero =>
      simp only [List.getD_cons_zero] at hbad ⊢
      unfold mkTrailingErr
      cases hs : asSqlOut nv.Value with
      | none => simp [hs]
      | some p =>
        obtain ⟨b, d⟩ := p
        have hv := asSqlOut_eq_some nv.Value b d hs
        cases d with
        | rows => rw [hv] at hbad; simp [isCursorOut] at hbad
        | null => simp [hs]
        | ptrNil => simp [hs]
        | ptr w => simp [hs]
        | prim n => simp [hs]
        | str s => simp [hs]
        | valuer e w => simp [hs]
        | out b' d' => simp [hs]
        | lobIn dd => simp [hs]
    | succ k =>
      have hg := hgood 0 (Nat.succ_pos _)
      simp only [List.getD_cons_zero] at hg
      obtain ⟨b, hv⟩ := isCursorOut_eq_true nv.Value hg
      rw [hv]
      simp only [asSqlOut]
      rw [ih (i + 1) k _ (fun j hj => by simpa using hgood (j + 1) (by omega))
        (by simp only [List.length_cons] at hk; omega) (by simpa using hbad)]
      simp only [List.getD_cons_succ]
      rw [show i + 1 + k = i + (k + 1) from by omega]

theorem convertCallArgs_eq (fields : List ParameterField) (nvargs : List NamedValue)
    (c : Nat) (ca0 : CallArgs) (prm : List NamedValue)
    (hlen : fields.length ≤ nvargs.length)
    (hloop : callLoop fields c fields 0 (nvargs.take fields.length) newCallArgs
      = .ok (ca0, prm)) :
    convertCallArgs fields nvargs c =
      match callTrailing fields.length (nvargs.drop fields.length) ca0 with
      | .error e => .error e
      | .ok ca' => .ok (ca', prm ++ nvargs.drop fields.length) := by
  unfold convertCallArgs
  rw [if_neg (by omega), hloop]

theorem callInPhase_ok (field : ParameterField) (nv : NamedValue)
    (outAsn : Option (Bool × GoValue)) (c : Nat) (ca : CallArgs) (nv2 : NamedValue)
    (o2 : Option (Bool × GoValue)) (ca2 : CallArgs)
    (h : callInPhase field nv outAsn c ca = .ok (nv2, o2, ca2)) :
    nv2.Ordinal = nv.Ordinal ∧ nv2.Name = nv.Name ∧
    ca2.outArgs = ca.outArgs ∧ ca2.outFields = ca.outFields ∧
    (field.In = true →
      ca2.inArgs = ca.inArgs ++ [nv2] ∧ ca2.inFields = ca.inFields ++ [field]) ∧
    (field.In = false → ca2 = ca) := by
  unfold callInPhase at h
  by_cases hIn : field.In = true
  · rw [if_pos hIn] at h
    cases hstep : callInStep field nv outAsn with
    | error e => simp only [hstep] at h; exact absurd h (by simp)
    | ok p1 =>
      obtain ⟨nv1, o1⟩ := p1
      simp only [hstep] at h
      cases hprime : primeLobValue nv1 c with
      | error e => simp only [hprime] at h; exact absurd h (by simp)
      | ok nv2' =>
        simp only [hprime] at h
        injection h with h
        injection h with h1 h
        injection h with h2 h3
        subst h1; subst h2; subst h3
        obtain ⟨s1, s2⟩ := callInStep_ok field nv nv1 outAsn o1 hstep
        obtain ⟨p1', p2'⟩ := primeLobValue_ok nv1 nv2' c hprime
        refine ⟨by rw [p1', s1], by rw [p2', s2], rfl, rfl, fun _ => ⟨rfl, rfl⟩, ?_⟩
        intro hf
        rw [hf] at hIn
        cases hIn
  · rw [if_neg hIn] at h
    injection h with h
    injection h with h1 h
    injection h with h2 h3
    subst h1; subst h2; subst h3
    exact ⟨rfl, rfl, rfl, rfl, fun hf => absurd hf hIn, fun _ => rfl⟩

theorem callOutPhase_ok (field : ParameterField) (nv2 : NamedValue)
    (o2 : Option (Bool × GoValue)) (ca2 ca3 : CallArgs)
    (h : callOutPhase field nv2 o2 ca2 = .ok ca3) :
    ca3.inArgs = ca2.inArgs ∧ ca3.inFields = ca2.inFields ∧
    (field.Out = true →
      ca3.outArgs = ca2.outArgs ++ [nv2] ∧ ca3.outFields = ca2.outFields ++ [field]) ∧
    (field.Out = false → ca3 = ca2) := by
  unfold callOutPhase at h
  by_cases hOut : field.Out = true
  · rw [if_pos hOut] at h
    cases o2 with
    | none => exact absurd h (by simp)
    | some p =>
      obtain ⟨b, d⟩ := p
      simp only [] at h
      cases d with
      | rows => exact absurd h (by simp)
      | null =>
        injection h with h
        subst h
        exact ⟨rfl, rfl, fun _ => ⟨rfl, rfl⟩, fun hf => by rw [hf] at hOut; cases hOut⟩
      | ptrNil =>
        injection h with h
        subst h
        exact ⟨rfl, rfl, fun _ => ⟨rfl, rfl⟩, fun hf => by rw [hf] at hOut; cases hOut⟩
      | ptr w =>
        injection h with h
        subst h
        exact ⟨rfl, rfl, fun _ => ⟨rfl, rfl⟩, fun hf => by rw [hf] at hOut; cases hOut⟩
      | prim n =>
        injection h with h
        subst h
        exact ⟨rfl, rfl, fun _ => ⟨rfl, rfl⟩, fun hf => by rw [hf] at hOut; cases hOut⟩
      | str s =>
        injection h with h
        subst h
        exact ⟨rfl, rfl, fun _ => ⟨rfl, rfl⟩, fun hf => by rw [hf] at hOut; cases hOut⟩
      | valuer e w =>
        injection h with h
        subst h
        exact ⟨rfl, rfl, fun _ => ⟨rfl, rfl⟩, fun hf => by rw [hf] at hOut; cases hOut⟩
      | out b' d' =>
        injection h with h
        subst h
        exact ⟨rfl, rfl, fun _ => ⟨rfl, rfl⟩, fun hf => by rw [hf] at hOut; cases hOut⟩
      | lobIn dd =>
        injection h with h
        subst h
        exact ⟨rfl, rfl, fun _ => ⟨rfl, rfl⟩, fun hf => by rw [hf] at hOut; cases hOut⟩
  · rw [if_neg hOut] at h
    injection h with h
    subst h
    exact ⟨rfl, rfl, fun hf => absurd hf hOut, fun _ => rfl⟩

theorem callLoop_ok (fields : List ParameterField) (c : Nat) :
    ∀ (fs : List ParameterField) (i : Nat) (prm0 : List NamedValue) (ca ca' : CallArgs)
      (prm' : List NamedValue),
      callLoop fields c fs i prm0 ca = .ok (ca', prm') →
      ca'.inFields = ca.inFields ++ fs.filter (fun f => f.In) ∧
      ca'.outFields = ca.outFields ++ fs.filter (fun f => f.Out) ∧
      ca'.inArgs.length = ca.inArgs.length + (fs.filter (fun f => f.In)).length ∧
      ca'.outArgs.length = ca.outArgs.length + (fs.filter (fun f => f.Out)).length ∧
      List.Perm (prm'.map projPair) (prm0.map projPair) ∧
      prm'.length = prm0.length := by
  intro fs
  induction fs with
  | nil =>
    intro i prm0 ca ca' prm' h
    injection h with h
    injection h with h1 h2
    subst h1; subst h2
    exact ⟨by simp, by simp, by simp, by simp, List.Perm.refl _, rfl⟩
  | cons field fs ih =>
    intro i prm0 ca ca' prm' h
    simp only [callLoop] at h
    split at h
    · exact absurd h (by simp)
    cases hin : callInPhase field ((reorderNVArgs i field.Name prm0).getD i nvDefault)
        (asSqlOut ((reorderNVArgs i field.Name prm0).getD i nvDefault).Value) c ca with
    | error e => rw [hin] at h; exact absurd h (by simp)
    | ok p =>
      obtain ⟨nv2, o2, ca2⟩ := p
      rw [hin] at h
      simp only [] at h
      cases hout : callOutPhase field nv2 o2 ca2 with
      | error e => rw [hout] at h; exact absurd h (by simp)
      | ok ca3 =>
        rw [hout] at h
        simp only [] at h
        obtain ⟨i1, i2, i3, i4, i5, i6⟩ :=
          ih (i + 1) ((reorderNVArgs i field.Name prm0).set i nv2) ca3 ca' prm' h
        obtain ⟨a1, a2, a3, a4, a5, a6⟩ := callInPhase_ok field _ _ c ca nv2 o2 ca2 hin
        obtain ⟨b1, b2, b3, b4⟩ := callOutPhase_ok field nv2 o2 ca2 ca3 hout
        have hproj : projPair nv2
            = projPair ((reorderNVArgs i field.Name prm0).getD i nvDefault) := by
          simp [projPair, a1, a2]
        have hperm : List.Perm (prm'.map projPair) (prm0.map projPair) := by
          refine i5.trans ?_
          rw [map_projPair_set _ i nv2 hproj]
          exact (reorderNVArgs_perm i field.Name prm0).map projPair
        have hlen : prm'.length = prm0.length := by
          rw [i6, List.length_set, reorderNVArgs_length]
        by_cases hIn : field.In = true <;> by_cases hOut : field.Out = true
        · obtain ⟨c1, c2⟩ := a5 hIn
          obtain ⟨d1, d2⟩ := b3 hOut
          refine ⟨?_, ?_, ?_, ?_, hperm, hlen⟩
          · rw [i1, b2, c2, List.filter_cons_of_pos (by simpa using hIn)]
            simp
          · rw [i2, d2, a4, List.filter_cons_of_pos (by simpa using hOut)]
            simp
          · rw [i3, b1, c1, List.filter_cons_of_pos (by simpa using hIn)]
            simp [Nat.add_assoc, Nat.add_comm 1]
          · rw [i4, d1, a3, List.filter_cons_of_pos (by simpa using hOut)]
            simp [Nat.add_assoc, Nat.add_comm 1]
        · obtain ⟨c1, c2⟩ := a5 hIn
          have d0 := b4 (by revert hOut; cases field.Out <;> simp)
          subst d0
          refine ⟨?_, ?_, ?_, ?_, hperm, hlen⟩
          · rw [i1, b2, c2, List.filter_cons_of_pos (by simpa using hIn)]
            simp
          · rw [i2, a4, List.filter_cons_of_neg (by simpa using hOut)]
          · rw [i3, b1, c1, List.filter_cons_of_pos (by simpa using hIn)]
            simp [Nat.add_assoc, Nat.add_comm 1]
          · rw [i4, a3, List.filter_cons_of_neg (by simpa using hOut)]
        · have c0 := a6 (by revert hIn; cases field.In <;> simp)
          subst c0
          obtain ⟨d1, d2⟩ := b3 hOut
          refine ⟨?_, ?_, ?_, ?_, hperm, hlen⟩
          · rw [i1, b2, List.filter_cons_of_neg (by simpa using hIn)]
          · rw [i2, d2, List.filter_cons_of_pos (by simpa using hOut)]
            simp
          · rw [i3, b1, List.filter_cons_of_neg (by simpa using hIn)]
          · rw [i4, d1, List.filter_cons_of_pos (by simpa using hOut)]
            simp [Nat.add_assoc, Nat.add_comm 1]
        · have c0 := a6 (by revert hIn; cases field.In <;> simp)
          subst c0
          have d0 := b4 (by revert hOut; cases field.Out <;> simp)
          subst d0
          refine ⟨?_, ?_, ?_, ?_, hperm, hlen⟩
          · rw [i1, List.filter_cons_of_neg (by simpa using hIn)]
          · rw [i2, List.filter_cons_of_neg (by simpa using hOut)]
          · rw [i3, List.filter_cons_of_neg (by simpa using hIn)]
          · rw [i4, List.filter_cons_of_neg (by simpa using hOut)]

/-- C5: on every successful call classification the four lists satisfy
the documented invariants: `inFields` and `inArgs` are parallel,
`outFields` is a prefix-shaped subset of `outArgs`, the extra `outArgs`
entries are all cursor-destination output wrappers, and the field lists
are exactly the in- and out-subsequences of the declared fields. -/
theorem convertCallArgs_invariants (fields : List ParameterField)
    (nvargs nvargs' : List NamedValue) (c : Nat) (ca : CallArgs)
    (h : convertCallArgs fields nvargs c = .ok (ca, nvargs')) :
    ca.inFields.length = ca.inArgs.length ∧
    ca.outFields.length ≤ ca.outArgs.length ∧
    (∀ nv ∈ ca.outArgs.drop ca.outFields.length, isCursorOut nv.Value = true) ∧
    ca.inFields = fields.filter (fun f => f.In) ∧
    ca.outFields = fields.filter (fun f => f.Out) := by
  unfold convertCallArgs at h
  split at h
  · exact absurd h (by simp)
  cases hloop : callLoop fields c fields 0 (nvargs.take fields.length) newCallArgs with
  | error e => rw [hloop] at h; exact absurd h (by simp)
  | ok p =>
    obtain ⟨ca0, prm⟩ := p
    rw [hloop] at h
    simp only [] at h
    cases htr : callTrailing fields.length (nvargs.drop fields.length) ca0 with
    | error e => rw [htr] at h; exact absurd h (by simp)
    | ok ca1 =>
      rw [htr] at h
      simp only [] at h
      injection h with h
      injection h with h1 h2
      subst h1
      obtain ⟨l1, l2, l3, l4, -, -⟩ :=
        callLoop_ok fields c fields 0 (nvargs.take fields.length) newCallArgs ca0 prm hloop
      obtain ⟨t1, t2, t3, t4, t5⟩ :=
        callTrailing_ok (nvargs.drop fields.length) fields.length ca0 ca1 htr
      have hout0 : ca0.outArgs.length = ca0.outFields.length := by
        rw [l2, l4]
        simp [newCallArgs]
      refine ⟨?_, ?_, ?_, ?_, ?_⟩
      · rw [t1, t3, l1, l3]
        simp [newCallArgs]
      · rw [t2, t4]
        simp only [List.length_append, l2, l4, newCallArgs, List.nil_append, List.length_nil]
        omega
      · intro nv hnv
        rw [t4, t2, ← hout0] at hnv
        rw [List.drop_left] at hnv
        exact t5 nv hnv
      · rw [t1, l1]
        simp [newCallArgs]
      · rw [t2, l2]
        simp [newCallArgs]

/-- Witness for C5 at the trailing-cursor scenario: one in-field, one
matching argument and one trailing cursor output. -/
theorem convertCallArgs_invariants_witness :
    ([idField "A"] : List ParameterField).length = 1 ∧
    (∃ ca nvargs', convertCallArgs [idField "A"]
        [⟨1, "A", .prim 1⟩, ⟨2, "", .out false .rows⟩] 8 = .ok (ca, nvargs') ∧
      ca.inFields.length = ca.inArgs.length ∧
      ca.outFields.length ≤ ca.outArgs.length ∧
      ca.inFields = [idField "A"].filter (fun f => f.In) ∧
      ca.outFields = [idField "A"].filter (fun f => f.Out)) := by
  refine ⟨rfl, ⟨[idField "A"], [], [⟨1, "A", .prim 1⟩], [⟨2, "", .out false .rows⟩]⟩,
    [⟨1, "A", .prim 1⟩, ⟨2, "", .out false .rows⟩], rfl, ?_⟩
  have h := convertCallArgs_invariants [idField "A"]
    [⟨1, "A", .prim 1⟩, ⟨2, "", .out false .rows⟩]
    [⟨1, "A", .prim 1⟩, ⟨2, "", .out false .rows⟩] 8
    ⟨[idField "A"], [], [⟨1, "A", .prim 1⟩], [⟨2, "", .out false .rows⟩]⟩ rfl
  exact ⟨h.1, h.2.1, h.2.2.2.1, h.2.2.2.2⟩

/-- C6: once the field loop has succeeded, every trailing argument must
be an output wrapper with a `*sql.Rows` destination: on success each
trailing entry is appended, unchanged and in order, to `outArgs` only
(`outFields` stays as the field loop left it), and the first offending
trailing argument aborts the call with the error carrying its index and
observed dynamic type. -/
theorem convertCallArgs_trailing_spec (fields : List ParameterField)
    (nvargs nvargs' : List NamedValue) (c k : Nat) (ca0 ca : CallArgs)
    (prm : List NamedValue)
    (hlen : fields.length ≤ nvargs.length)
    (hloop : callLoop fields c fields 0 (nvargs.take fields.length) newCallArgs
      = .ok (ca0, prm)) :
    (convertCallArgs fields nvargs c = .ok (ca, nvargs') →
      ca.outFields = ca0.outFields ∧
      ca.outArgs = ca0.outArgs ++ nvargs.drop fields.length ∧
      (∀ nv ∈ nvargs.drop fields.length, isCursorOut nv.Value = true)) ∧
    ((∀ j, j < k → isCursorOut ((nvargs.getD (fields.length + j) nvDefault).Value) = true) →
      fields.length + k < nvargs.length →
      isCursorOut ((nvargs.getD (fields.length + k) nvDefault).Value) = false →
      convertCallArgs fields nvargs c
        = .error (mkTrailingErr (fields.length + k)
            ((nvargs.getD (fields.length + k) nvDefault).Value))) := by
  have heq := convertCallArgs_eq fields nvargs c ca0 prm hlen hloop
  have hdropD : ∀ j, (nvargs.drop fields.length).getD j nvDefault
      = nvargs.getD (fields.length + j) nvDefault := by
    intro j
    simp [List.getD_eq_getElem?_getD, List.getElem?_drop]
  constructor
  · intro h
    rw [heq] at h
    cases htr : callTrailing fields.length (nvargs.drop fields.length) ca0 with
    | error e => rw [htr] at h; exact absurd h (by simp)
    | ok ca1 =>
      rw [htr] at h
      simp only [] at h
      injection h with h
      injection h with h1 h2
      subst h1
      obtain ⟨-, t2, -, t4, t5⟩ := callTrailing_ok _ _ _ _ htr
      exact ⟨t2, t4, t5⟩
  · intro hgood hk hbad
    rw [heq]
    rw [callTrailing_err (nvargs.drop fields.length) fields.length k ca0
      (fun j hj => by rw [hdropD j]; exact hgood j hj)
      (by rw [List.length_drop]; omega)
      (by rw [hdropD k]; exact hbad)]
    simp [hdropD k]

/-- Witness for C6: a non-wrapper primitive in the trailing position is
rejected with its index (1) and its observed dynamic type (int64). -/
theorem convertCallArgs_trailing_spec_witness :
    convertCallArgs [idField "A"] [⟨1, "A", .prim 1⟩, ⟨2, "", .prim 9⟩] 8
      = .error (.trailingNotOutParam "int64" 1) := by
  have h := (convertCallArgs_trailing_spec [idField "A"]
    [⟨1, "A", .prim 1⟩, ⟨2, "", .prim 9⟩] [] 8 0
    ⟨[idField "A"], [], [⟨1, "A", .prim 1⟩], []⟩
    ⟨[idField "A"], [], [⟨1, "A", .prim 1⟩], []⟩ [⟨1, "A", .prim 1⟩]
    (by decide) rfl).2
    (fun j hj => absurd hj (by omega)) (by decide) (by decide)
  exact h

/-- C1 (evaluation at the failing input): for an in-only field matched
with an `In`-flagged output wrapper, the field's converter is invoked
on the wrapper's destination (so a failing converter aborts the call,
second conjunct), but the source assigns the converted value only to
its local copy of the wrapper: the entry appended to `inArgs` still
holds the original wrapper with the unconverted destination, and no LOB
priming happens, even though the converter below yields a fresh,
unfetched multi-chunk LOB descriptor (first conjunct: the stored
argument is the untouched wrapper around `prim 7`, not a primed
`lobIn`). -/
theorem convertCallArgs_inout_dest_discarded :
    (convertCallArgs [lobField] [⟨1, "", .out true (.prim 7)⟩] 8).map
        (fun r => (r.1.inArgs, r.2))
      = .ok ([⟨1, "", .out true (.prim 7)⟩], [⟨1, "", .out true (.prim 7)⟩]) ∧
    convertCallArgs [⟨"", true, false, fun _ => .error (.external "conv")⟩]
        [⟨1, "", .out true (.prim 7)⟩] 8
      = .error (.fieldConv "" (.external "conv")) := by
  constructor
  · decide
  · rfl

/-- C7 counterexample: `convertCallArgs` reorders named arguments, so
after an accepted call the entry at index 0 carries name `A` and
ordinal 2 where the caller had put name `B` and ordinal 1. -/
theorem convertCallArgs_reorder_changes_names :
    (convertCallArgs [idField "A", idField "B"]
        [⟨1, "B", .prim 2⟩, ⟨2, "A", .prim 1⟩] 8).map (fun r => r.2.map projPair)
      = .ok [(2, "A"), (1, "B")] ∧
    ((2 : Nat), "A") ≠ ((1 : Nat), "B") := by
  constructor
  · decide
  · decide

/-- C7 (amended): for ConvertExec and ConvertQuery every accepted
input keeps each entry's Ordinal and Name unchanged at its index (only
the Value is replaced by its converted form); ConvertCall additionally
reorders entries by name inside the first `|F|` positions, so there the
multiset of (Ordinal, Name) pairs is preserved while the trailing
entries beyond `|F|` are untouched entirely. -/
theorem namedValue_frame_spec (fields : List ParameterField) (nvargs : List NamedValue)
    (c : Nat) (recs : List Nat) (envargs qnvargs cnvargs : List NamedValue)
    (ca : CallArgs) :
    (convertExecArgs fields nvargs c = some (.ok (recs, envargs)) →
      envargs.map projPair = nvargs.map projPair) ∧
    (convertQueryArgs fields nvargs c = .ok qnvargs →
      qnvargs.map projPair = nvargs.map projPair) ∧
    (convertCallArgs fields nvargs c = .ok (ca, cnvargs) →
      List.Perm ((cnvargs.take fields.length).map projPair)
        ((nvargs.take fields.length).map projPair) ∧
      cnvargs.drop fields.length = nvargs.drop fields.length) := by
  refine ⟨?_, ?_, ?_⟩
  · intro h
    obtain ⟨h1, h2, rows', hrows, hflat⟩ := convertExecArgs_ok_elim fields nvargs c recs envargs h
    have hdvd : fields.length ∣ nvargs.length := Nat.dvd_of_mod_eq_zero h2
    have hmem : ∀ row ∈ chunkRows fields.length nvargs, fields.length = row.length := by
      intro row hrow
      exact (chunkRows_mem_length fields.length h1 nvargs.length nvargs row
        (Nat.le_refl _) hdvd hrow).symm
    obtain ⟨-, hmap⟩ :=
      convertExecRows_ok fields c (chunkRows fields.length nvargs) 0 recs rows' hmem hrows
    subst hflat
    rw [List.map_flatten, hmap, ← List.map_flatten,
      chunkRows_flatten fields.length h1 nvargs.length nvargs (Nat.le_refl _)]
  · intro h
    unfold convertQueryArgs at h
    split at h
    · exact absurd h (by simp)
    rename_i hlen
    exact (convertExecRow_ok fields nvargs qnvargs c (by omega) h).1
  · intro h
    unfold convertCallArgs at h
    split at h
    · exact absurd h (by simp)
    rename_i hlt
    cases hloop : callLoop fields c fields 0 (nvargs.take fields.length) newCallArgs with
    | error e => rw [hloop] at h; exact absurd h (by simp)
    | ok p =>
      obtain ⟨ca0, prm⟩ := p
      rw [hloop] at h
      simp only [] at h
      cases htr : callTrailing fields.length (nvargs.drop fields.length) ca0 with
      | error e => rw [htr] at h; exact absurd h (by simp)
      | ok ca1 =>
        rw [htr] at h
        simp only [] at h
        injection h with h
        injection h with h1 h2
        subst h2
        obtain ⟨-, -, -, -, l5, l6⟩ :=
          callLoop_ok fields c fields 0 (nvargs.take fields.length) newCallArgs ca0 prm hloop
        have hplen : prm.length = fields.length := by
          rw [l6, List.length_take]
          omega
        constructor
        · rw [← hplen, List.take_left]
          exact l5.trans (by rw [hplen])
        · rw [← hplen, List.drop_left, hplen]

/-- Witness for C7: a two-field named call permutes the pairs of the
prefix while a query leaves them in place. -/
theorem namedValue_frame_spec_witness :
    ([⟨2, "A", .prim 1⟩, ⟨1, "B", .prim 2⟩] : List NamedValue).map projPair
        = ([⟨2, "A", .prim 1⟩, ⟨1, "B", .prim 2⟩] : List NamedValue).map projPair ∧
    List.Perm ((([⟨2, "A", .prim 1⟩, ⟨1, "B", .prim 2⟩] : List NamedValue).take 2).map projPair)
      ((([⟨1, "B", .prim 2⟩, ⟨2, "A", .prim 1⟩] : List NamedValue).take 2).map projPair) := by
  have h := (namedValue_frame_spec [idField "A", idField "B"]
    [⟨1, "B", .prim 2⟩, ⟨2, "A", .prim 1⟩] 8 []
    [] [] [⟨2, "A", .prim 1⟩, ⟨1, "B", .prim 2⟩]
    ⟨[idField "A", idField "B"], [], [⟨2, "A", .prim 1⟩, ⟨1, "B", .prim 2⟩], []⟩).2.2 rfl
  exact ⟨rfl, h.1⟩
